import Mathlib

/-!
Shallow embedding of `mne/minimum_norm/time_frequency.py` (induced power /
phase-locking estimation engine) together with theorems settling the frozen
claims about it.

Modelling conventions:
* numpy float arrays are modelled over `ℝ`; complex arrays over `ℂ`.
* A complex numpy value that may be NaN (produced by `0/0` in the unguarded
  phase-lock normalization `plv_f /= np.abs(plv_f)`) is modelled as
  `WithBot ℂ` with `⊥` standing for a non-finite value; `WithBot` addition
  propagates `⊥`, matching NaN propagation under `+`.
* 2-D / 3-D arrays are total functions out of `Fin` index types, so array
  shapes become types.
* External collaborators (the `cwt` convolution engine, `morlet`,
  `prepare_inverse_operator`'s matrix outputs, `scipy.linalg.svd`'s factors,
  `rescale`) are opaque parameters: the engine only composes their outputs,
  which is all the claims speak about.
* Python loops that accumulate in place become structural recursion with the
  accumulator passed explicitly.
-/

/-- Source orientation mode of the inverse operator:
`FIFF.FIFFV_MNE_FIXED_ORI` (1 row per source) or
`FIFF.FIFFV_MNE_FREE_ORI` (3 rows per source). -/
inductive Ori where
  | fixed : Ori
  | free : Ori
deriving DecidableEq

/-- Number of output power rows: `n_sources = K.shape[0]` and, in free
orientation, `n_sources /= 3` (Python 2 floor division). -/
def nOut (ori : Ori) (nr : ℕ) : ℕ :=
  match ori with
  | .fixed => nr
  | .free => nr / 3

/-- `np.dot` of two real 2-D arrays. -/
def npDot {a b c : ℕ} (K : Fin a → Fin b → ℝ) (M : Fin b → Fin c → ℝ) :
    Fin a → Fin c → ℝ :=
  fun i j => ∑ k : Fin b, K i k * M k j

/-- `np.real(tfr)`. -/
def tfrRe {m nt : ℕ} (tfr : Fin m → Fin nt → ℂ) : Fin m → Fin nt → ℝ :=
  fun c t => (tfr c t).re

/-- `np.imag(tfr)`. -/
def tfrIm {m nt : ℕ} (tfr : Fin m → Fin nt → ℂ) : Fin m → Fin nt → ℝ :=
  fun c t => (tfr c t).im

/-- Modelled from the spec: `combine_xyz(sol, square=True)` is imported from
`mne.minimum_norm.inverse`, which is not under `src/`; per the spec it
"combines each group of 3 consecutive rows by sum-of-squares (Cartesian
magnitude-squared)". -/
def combine_xyz {nr nt : ℕ} (sol : Fin nr → Fin nt → ℝ) :
    Fin (nr / 3) → Fin nt → ℝ :=
  fun j t =>
    (sol ⟨3 * j.val, by have := j.isLt; omega⟩ t) ^ 2 +
    (sol ⟨3 * j.val + 1, by have := j.isLt; omega⟩ t) ^ 2 +
    (sol ⟨3 * j.val + 2, by have := j.isLt; omega⟩ t) ^ 2

/-- The orientation branch of `_compute_pow_plv`'s inner loop:
free orientation combines via `combine_xyz(sol, square=True)`,
fixed orientation squares in place (`np.power(sol, 2, sol)`). -/
def powCombine (ori : Ori) {nr nt : ℕ} (sol : Fin nr → Fin nt → ℝ) :
    Fin (nOut ori nr) → Fin nt → ℝ :=
  match ori with
  | .fixed => fun i t => (sol i t) ^ 2
  | .free => combine_xyz sol

/-- The raw complex phase-lock value accumulated into `plv_f` inside the
`k`-loop of `_compute_pow_plv`: `plv_f += sol` for the real part (`k == 0`)
and `plv_f += 1j * sol` for the imaginary part (`k == 1`). -/
def plvF {nr m nt : ℕ} (K : Fin nr → Fin m → ℝ) (tfr : Fin m → Fin nt → ℂ) :
    Fin nr → Fin nt → ℂ :=
  fun i t =>
    (npDot K (tfrRe tfr) i t : ℝ) + Complex.I * (npDot K (tfrIm tfr) i t : ℝ)

/-- One entry of `plv_f /= np.abs(plv_f)` (line 93): the division is not
guarded, so a zero-magnitude entry yields `0/0 = NaN` (modelled `⊥`). -/
noncomputable def plvNormEntry (z : ℂ) : WithBot ℂ :=
  if Complex.abs z = 0 then ⊥ else ((z / (Complex.abs z : ℂ) : ℂ) : WithBot ℂ)

/-- The per-trial, per-frequency power contribution `pow_f` of
`_compute_pow_plv`: the `k`-loop squares/combines the real-part projection
(`k == 0`) and then the imaginary-part projection (`k == 1`) and sums them. -/
def powF (ori : Ori) {nr m nt : ℕ} (K : Fin nr → Fin m → ℝ)
    (tfr : Fin m → Fin nt → ℂ) : Fin (nOut ori nr) → Fin nt → ℝ :=
  fun s t =>
    powCombine ori (npDot K (tfrRe tfr)) s t +
    powCombine ori (npDot K (tfrIm tfr)) s t

/-- `e = e[sel]`: keep only the selected channels. -/
def selectRows {nk nc nt : ℕ} (sel : Fin nk → Fin nc)
    (e : Fin nc → Fin nt → ℝ) : Fin nk → Fin nt → ℝ :=
  fun c t => e (sel c) t

/-- `e = np.dot(Vh, e)`: reduce the data rank through the PCA projector. -/
def applyVh {r nk nt : ℕ} (Vh : Fin r → Fin nk → ℝ)
    (e : Fin nk → Fin nt → ℝ) : Fin r → Fin nt → ℝ :=
  npDot Vh e

section ComputePowPlv

variable {W : Type} {nc m nr nf nt : ℕ}

/-- The trial loop (`for e in data`) of `_compute_pow_plv`, with the two
accumulated tensors (`power`, `plv`) passed explicitly.  `prep` is the
channel selection followed by the optional `Vh` rank reduction (the shapes of
both are collapsed into one preprocessing map since the convolution `cwt` is
an opaque external collaborator), `cwt` produces the complex wavelet
coefficients `tfr` for one preprocessed trial and one wavelet, `Ws` is the
wavelet bank indexed by frequency.  Each trial adds, for every frequency `f`,
the power contribution `pow_f` into `power[:, f, :]` and — when `with_plv` —
the unit-normalized `plv_f` into `plv[:, f, :]`. -/
noncomputable def powPlvLoop (K : Fin nr → Fin m → ℝ)
    (prep : (Fin nc → Fin nt → ℝ) → Fin m → Fin nt → ℝ)
    (Ws : Fin nf → W)
    (ori : Ori)
    (cwt : (Fin m → Fin nt → ℝ) → W → Fin m → Fin nt → ℂ)
    (withPlv : Bool) (data : List (Fin nc → Fin nt → ℝ))
    (acc : (Fin (nOut ori nr) → Fin nf → Fin nt → ℝ) ×
      (Fin nr → Fin nf → Fin nt → WithBot ℂ)) :
    (Fin (nOut ori nr) → Fin nf → Fin nt → ℝ) ×
      (Fin nr → Fin nf → Fin nt → WithBot ℂ) :=
  match data with
  | [] => acc
  | e :: rest =>
      powPlvLoop K prep Ws ori cwt withPlv rest
        (fun s f t => acc.1 s f t + powF ori K (cwt (prep e) (Ws f)) s t,
         fun i f t =>
           if withPlv then
             acc.2 i f t + plvNormEntry (plvF K (cwt (prep e) (Ws f)) i t)
           else acc.2 i f t)

/-- `_compute_pow_plv(data, K, sel+Vh as prep, Ws, source_ori, _, _, with_plv)`:
runs the trial loop starting from `np.zeros` accumulators and returns
`(power, plv)`, with `plv = None` when `with_plv` is false. -/
noncomputable def compute_pow_plv (K : Fin nr → Fin m → ℝ)
    (prep : (Fin nc → Fin nt → ℝ) → Fin m → Fin nt → ℝ)
    (Ws : Fin nf → W) (ori : Ori)
    (cwt : (Fin m → Fin nt → ℝ) → W → Fin m → Fin nt → ℂ)
    (withPlv : Bool) (data : List (Fin nc → Fin nt → ℝ)) :
    (Fin (nOut ori nr) → Fin nf → Fin nt → ℝ) ×
      Option (Fin nr → Fin nf → Fin nt → WithBot ℂ) :=
  let r := powPlvLoop K prep Ws ori cwt withPlv data (0, 0)
  (r.1, if withPlv then some r.2 else none)

/-- Closed form of the accumulated power: the sum over trials of the
per-trial contributions `pow_f`. -/
def powSum (K : Fin nr → Fin m → ℝ)
    (prep : (Fin nc → Fin nt → ℝ) → Fin m → Fin nt → ℝ)
    (Ws : Fin nf → W) (ori : Ori)
    (cwt : (Fin m → Fin nt → ℝ) → W → Fin m → Fin nt → ℂ)
    (data : List (Fin nc → Fin nt → ℝ)) :
    Fin (nOut ori nr) → Fin nf → Fin nt → ℝ :=
  fun s f t => (data.map (fun e => powF ori K (cwt (prep e) (Ws f)) s t)).sum

/-- Closed form of the accumulated phase-lock tensor: the sum over trials of
the unit-normalized complex values `plv_f / |plv_f|` (`⊥` when the magnitude
is zero). -/
noncomputable def plvSum (K : Fin nr → Fin m → ℝ)
    (prep : (Fin nc → Fin nt → ℝ) → Fin m → Fin nt → ℝ)
    (Ws : Fin nf → W)
    (cwt : (Fin m → Fin nt → ℝ) → W → Fin m → Fin nt → ℂ)
    (data : List (Fin nc → Fin nt → ℝ)) :
    Fin nr → Fin nf → Fin nt → WithBot ℂ :=
  fun i f t =>
    (data.map (fun e => plvNormEntry (plvF K (cwt (prep e) (Ws f)) i t))).sum

/-- Follows the claim's words, not the source: the plain (un-normalized) sum
over trials of the raw complex projected values
`real-projection + i·imaginary-projection`. -/
def rawPlvSum (K : Fin nr → Fin m → ℝ)
    (prep : (Fin nc → Fin nt → ℝ) → Fin m → Fin nt → ℝ)
    (Ws : Fin nf → W)
    (cwt : (Fin m → Fin nt → ℝ) → W → Fin m → Fin nt → ℂ)
    (data : List (Fin nc → Fin nt → ℝ)) :
    Fin nr → Fin nf → Fin nt → ℂ :=
  fun i f t => (data.map (fun e => plvF K (cwt (prep e) (Ws f)) i t)).sum


end ComputePowPlv

section Batching

variable {W : Type} {nc m nr nf nt : ℕ}

/-- The merge step of `_source_induced_power` (lines 273, 277):
`power = sum(o[0] for o in out)` and `plv = sum(o[1] for o in out)`,
element-wise tensor sums over the per-batch partial results. -/
noncomputable def mergeOuts
    (outs : List ((Fin (nOut ori nr) → Fin nf → Fin nt → ℝ) ×
      (Fin nr → Fin nf → Fin nt → WithBot ℂ))) :
    (Fin (nOut ori nr) → Fin nf → Fin nt → ℝ) ×
      (Fin nr → Fin nf → Fin nt → WithBot ℂ) :=
  (fun s f t => (outs.map (fun o => o.1 s f t)).sum,
   fun i f t => (outs.map (fun o => o.2 i f t)).sum)

/-- One parallel batch: `_compute_pow_plv` run on a sublist of the trials,
starting from fresh zero accumulators. -/
noncomputable def runBatch (K : Fin nr → Fin m → ℝ)
    (prep : (Fin nc → Fin nt → ℝ) → Fin m → Fin nt → ℝ)
    (Ws : Fin nf → W) (ori : Ori)
    (cwt : (Fin m → Fin nt → ℝ) → W → Fin m → Fin nt → ℂ)
    (withPlv : Bool) (batch : List (Fin nc → Fin nt → ℝ)) :
    (Fin (nOut ori nr) → Fin nf → Fin nt → ℝ) ×
      (Fin nr → Fin nf → Fin nt → WithBot ℂ) :=
  powPlvLoop K prep Ws ori cwt withPlv batch (0, 0)







end Batching

section ArraySplit

variable {α : Type}

/-- Split a list into consecutive chunks of the given sizes. -/
def chunksOf : List α → List ℕ → List (List α)
  | _, [] => []
  | l, sz :: rest => l.take sz :: chunksOf (l.drop sz) rest

/-- The chunk sizes used by `np.array_split(arr, n)`: with `q = len / n` and
`r = len % n`, the first `r` chunks have `q + 1` elements, the remaining
`n - r` chunks have `q` elements. -/
def splitSizes (len n : ℕ) : List ℕ :=
  (List.range n).map (fun i => len / n + if i < len % n then 1 else 0)

/-- `np.array_split(l, n)`: `n` contiguous chunks covering `l` exactly once
(for `1 ≤ n ≤ l.length`; numpy would pad with empty chunks for larger `n`,
but `_source_induced_power` clamps `n` first). -/
def arraySplit (l : List α) (n : ℕ) : List (List α) :=
  chunksOf l (splitSizes l.length n)







end ArraySplit

section MeanXyz

variable {α : Type} (add : α → α → α) (div3 : α → α)

/-- `_mean_xyz(vec)`: raises (`none`) unless the row count is a multiple of 3;
otherwise mutates `vec` in place through the strided view
`comb = vec[0::3]` — `comb += vec[1::3]` (state `v1`), `comb += vec[2::3]`
(state `v2`), `comb /= 3` (state `v3`) — and returns the final state of the
whole array together with the returned view `comb`, which aliases rows
`0, 3, 6, …` of that final state.  The row entry type `α` is kept abstract
(rows of `vec` are themselves arrays), with the numpy element-wise `+` and
`/ 3` supplied as `add` and `div3`. -/
def mean_xyz {nr : ℕ} (vec : Fin nr → α) :
    Option ((Fin nr → α) × (Fin (nr / 3) → α)) :=
  if h : nr % 3 = 0 then
    let v1 : Fin nr → α := fun i =>
      if h1 : i.val % 3 = 0 then
        add (vec i) (vec ⟨i.val + 1, by have := i.isLt; omega⟩)
      else vec i
    let v2 : Fin nr → α := fun i =>
      if h2 : i.val % 3 = 0 then
        add (v1 i) (v1 ⟨i.val + 2, by have := i.isLt; omega⟩)
      else v1 i
    let v3 : Fin nr → α := fun i =>
      if i.val % 3 = 0 then div3 (v2 i) else v2 i
    some (v3, fun g => v3 ⟨3 * g.val, by have hg : g.val < nr / 3 := g.isLt; omega⟩)
  else none



end MeanXyz

section FinalPlv

variable {nr nf nt : ℕ}

/-- The phase-lock post-step of `_source_induced_power` (lines 277–281):
`plv = np.abs(plv)`, `plv /= len(epochs_data)`, and — in free orientation —
`plv = _mean_xyz(plv)`.  Returns `none` when `_mean_xyz` raises (row count
not a multiple of 3). -/
noncomputable def finalPlv (ori : Ori) (nave : ℕ)
    (plvT : Fin nr → Fin nf → Fin nt → WithBot ℂ) :
    Option (Fin (nOut ori nr) → Fin nf → Fin nt → WithBot ℝ) :=
  let p : Fin nr → Fin nf → Fin nt → WithBot ℝ :=
    fun i f t => ((plvT i f t).map Complex.abs).map (fun x => x / (nave : ℝ))
  match ori with
  | .fixed => some p
  | .free =>
      (mean_xyz (fun a b => fun f t => a f t + b f t)
        (fun a => fun f t => (a f t).map (fun x => x / (3 : ℝ))) p).map Prod.snd

/-- Closed form for one collapsed free-orientation PLV entry: the arithmetic
mean of the three per-row magnitudes of the accumulated complex values, each
divided by the trial count (`⊥` when any of the three is non-finite). -/
noncomputable def plvCollapse3 (nave : ℕ) (a b c : WithBot ℂ) : WithBot ℝ :=
  match a, b, c with
  | some x, some y, some z =>
      some ((Complex.abs x / (nave : ℝ) + Complex.abs y / (nave : ℝ) +
        Complex.abs z / (nave : ℝ)) / 3)
  | _, _, _ => ⊥



end FinalPlv

section Pca

/-- `rank = np.sum(s > 1e-8 * s[0])` (line 222): the number of singular
values strictly exceeding `1e-8` times the first singular value. -/
noncomputable def svdRank {p : ℕ} (hp : 0 < p) (s : Fin p → ℝ) : ℕ :=
  (Finset.univ.filter (fun i => (1 / 10 ^ 8 : ℝ) * s ⟨0, hp⟩ < s i)).card

/-- Result of the PCA branch: the truncated kernel factor and projector. -/
structure PcaOut (nr nk : ℕ) where
  rank : ℕ
  K : Fin nr → Fin rank → ℝ
  Vh : Fin rank → Fin nk → ℝ

/-- The PCA branch of `_source_induced_power` (lines 220–224).  The factors
`U, s, Vh = linalg.svd(K)` come from the external `scipy.linalg.svd`
collaborator (`U` square of size `n_rows`, `s` of length
`p = min(n_rows, n_cols)` in descending order, `Vh` square of size
`n_cols`); the code computes `rank = np.sum(s > 1e-8 * s[0])`, replaces `K`
by `s[:rank] * U[:, :rank]` (column `j` of the truncated `U` scaled by
`s[j]`) and keeps the rank-reducing projector `Vh[:rank]`. -/
noncomputable def pcaStep {nr nk p : ℕ} (hp : 0 < p) (hpr : p ≤ nr)
    (hpk : p ≤ nk) (U : Fin nr → Fin nr → ℝ) (s : Fin p → ℝ)
    (Vh : Fin nk → Fin nk → ℝ) : PcaOut nr nk :=
  have hle : svdRank hp s ≤ p := by
    have h := Finset.card_filter_le (Finset.univ : Finset (Fin p))
      (fun i => (1 / 10 ^ 8 : ℝ) * s ⟨0, hp⟩ < s i)
    rw [Finset.card_univ, Fintype.card_fin] at h
    exact h
  { rank := svdRank hp s
    K := fun i j =>
      s (Fin.castLE hle j) * U i (Fin.castLE (le_trans hle hpr) j)
    Vh := fun j c => Vh (Fin.castLE (le_trans hle hpk) j) c }

end Pca

/-- The inputs of `_source_induced_power` that the engine reads, with the
externally supplied collaborators kept opaque:
* `trials` is `epochs.get_data()`;
* `sel` embeds the selected channels (`epochs.ch_names.index(name)` for the
  noise-covariance channel names) into the raw channel axis;
* `K0` is `inv['reginv'][:, None] * reduce(np.dot, [inv['eigen_fields']['data'],
  inv['whitener'], inv['proj']])` (lines 215–218), composed here because all
  its factors are external inverse-operator fields;
* `svdU`, `svdS`, `svdVh` are the `scipy.linalg.svd` factors of `K0`;
* `EL` is the effective eigen-leads weighting applied after the PCA branch
  (lines 233–245): `inv['eigen_leads']['data']` itself when
  `eigen_leads_weighted`, else `np.sqrt(inv['source_cov']['data'])[:, None] *
  inv['eigen_leads']['data']` — both are row-scaled external matrices, so the
  composed matrix is one opaque input;
* `noiseNorm` is `inv['noisenorm']`;
* `Ws` is the `morlet` wavelet bank, one opaque kernel per frequency;
* `cwt` is the external convolution collaborator, usable at any row count.
The `label=None` path is modelled (no vertex sub-selection). -/
structure SIPCtx (W : Type) where
  nc : ℕ
  nk : ℕ
  ns : ℕ
  nr : ℕ
  nf : ℕ
  nt : ℕ
  hnr : 0 < nr
  hnk : 0 < nk
  trials : List (Fin nc → Fin nt → ℝ)
  sel : Fin nk → Fin nc
  K0 : Fin nr → Fin nk → ℝ
  svdU : Fin nr → Fin nr → ℝ
  svdS : Fin (min nr nk) → ℝ
  svdVh : Fin nk → Fin nk → ℝ
  EL : Fin ns → Fin nr → ℝ
  ori : Ori
  noiseNorm : Fin (nOut ori ns) → ℝ
  Ws : Fin nf → W
  cwt : (m : ℕ) → (Fin m → Fin nt → ℝ) → W → Fin m → Fin nt → ℂ

/-- The power post-step of `_source_induced_power`: `power /= len(epochs_data)`
(line 274) and, when dSPM, `power *= noise_norm[:, None, None] ** 2`
(line 286). -/
noncomputable def finalPower {a nf nt : ℕ} (nave : ℕ) (dSPM : Bool)
    (noiseNorm : Fin a → ℝ) (P : Fin a → Fin nf → Fin nt → ℝ) :
    Fin a → Fin nf → Fin nt → ℝ :=
  let P1 : Fin a → Fin nf → Fin nt → ℝ := fun s f t => P s f t / (nave : ℝ)
  if dSPM then fun s f t => P1 s f t * (noiseNorm s) ^ 2 else P1

/-- The batching-and-reduction part of `_source_induced_power` (lines
268–286) for a given effective kernel `K2` and data preprocessing `prep`:
clamp `n_jobs = min(n_jobs, len(epochs_data))`, split the trials with
`np.array_split`, run `_compute_pow_plv` per batch, merge by summation,
normalize the power and compute the final phase-lock tensor.  Returns `none`
when the `_mean_xyz` post-step raises. -/
noncomputable def runPipeline {W : Type} (ctx : SIPCtx W) {m : ℕ}
    (K2 : Fin ctx.ns → Fin m → ℝ)
    (prep : (Fin ctx.nc → Fin ctx.nt → ℝ) → Fin m → Fin ctx.nt → ℝ)
    (dSPM : Bool) (n_jobs : ℕ) (with_plv : Bool) :
    Option ((Fin (nOut ctx.ori ctx.ns) → Fin ctx.nf → Fin ctx.nt → ℝ) ×
      Option (Fin (nOut ctx.ori ctx.ns) → Fin ctx.nf → Fin ctx.nt → WithBot ℝ)) :=
  let nave := ctx.trials.length
  let merged := mergeOuts
    ((arraySplit ctx.trials (min n_jobs nave)).map
      (fun b => runBatch K2 prep ctx.Ws ctx.ori (ctx.cwt m) with_plv b))
  let power := finalPower nave dSPM ctx.noiseNorm merged.1
  if with_plv then
    (finalPlv ctx.ori nave merged.2).map (fun pl => (power, some pl))
  else some (power, none)

/-- `_source_induced_power(epochs, inverse_operator, frequencies, label=None,
lambda2, dSPM, n_cycles, use_fft, pca, n_jobs, with_plv)`: builds the
effective kernel (through the PCA branch when `pca`) and runs the batched
computation. -/
noncomputable def source_induced_power_aux {W : Type} (ctx : SIPCtx W)
    (dSPM : Bool) (pca : Bool) (n_jobs : ℕ) (with_plv : Bool) :
    Option ((Fin (nOut ctx.ori ctx.ns) → Fin ctx.nf → Fin ctx.nt → ℝ) ×
      Option (Fin (nOut ctx.ori ctx.ns) → Fin ctx.nf → Fin ctx.nt → WithBot ℝ)) :=
  if pca then
    let p := pcaStep (lt_min ctx.hnr ctx.hnk) (Nat.min_le_left _ _)
      (Nat.min_le_right _ _) ctx.svdU ctx.svdS ctx.svdVh
    runPipeline ctx (npDot ctx.EL p.K)
      (fun e => applyVh p.Vh (selectRows ctx.sel e)) dSPM n_jobs with_plv
  else
    runPipeline ctx (npDot ctx.EL ctx.K0) (selectRows ctx.sel)
      dSPM n_jobs with_plv

/-- The public `source_induced_power(epochs, inverse_operator, frequencies,
label, lambda2, dSPM, n_cycles, use_fft, baseline, baseline_mode, pca,
n_jobs)` (lines 291–347): it calls `_source_induced_power(..., pca=True,
n_jobs=1)` — the literal constants on line 341, not the caller's `pca` and
`n_jobs` — and applies the external `rescale` baseline-correction
collaborator to the power tensor. -/
noncomputable def source_induced_power_pub {W : Type} (ctx : SIPCtx W)
    (rescaleFn : (Fin (nOut ctx.ori ctx.ns) → Fin ctx.nf → Fin ctx.nt → ℝ) →
      Fin (nOut ctx.ori ctx.ns) → Fin ctx.nf → Fin ctx.nt → ℝ)
    (dSPM : Bool) (pca : Bool) (n_jobs : ℕ) :
    Option ((Fin (nOut ctx.ori ctx.ns) → Fin ctx.nf → Fin ctx.nt → ℝ) ×
      Option (Fin (nOut ctx.ori ctx.ns) → Fin ctx.nf → Fin ctx.nt → WithBot ℝ)) :=
  (source_induced_power_aux ctx dSPM true 1 true).map
    (fun r => (rescaleFn r.1, r.2))

section Band

variable {ns nf nt : ℕ}

/-- Line 163: `idx = [k for k, f in enumerate(frequencies) if
band[0] <= f <= band[1]]`.  Frequency-grid values and band bounds are
modelled as exact rationals. -/
def bandIdx (frequencies : Fin nf → ℚ) (lo hi : ℚ) : List (Fin nf) :=
  (List.finRange nf).filter
    (fun k => lo ≤ frequencies k ∧ frequencies k ≤ hi)

/-- Line 166: `power = np.mean(powers[:, idx, :], axis=1)` — the mean of the
power tensor over the selected frequency indices only (time and source axes
untouched). -/
noncomputable def bandPower (powers : Fin ns → Fin nf → Fin nt → ℝ)
    (idx : List (Fin nf)) : Fin ns → Fin nt → ℝ :=
  fun s t => (idx.map (fun f => powers s f t)).sum / (idx.length : ℝ)

/-- The per-band step of `source_band_induced_power` (lines 162–166). -/
noncomputable def bandInducedPower (powers : Fin ns → Fin nf → Fin nt → ℝ)
    (frequencies : Fin nf → ℚ) (lo hi : ℚ) : Fin ns → Fin nt → ℝ :=
  bandPower powers (bandIdx frequencies lo hi)

end Band

section ConcreteInputs

/-- Concrete 1×1 kernel `K = [[1.0]]`. -/
def exK : Fin 1 → Fin 1 → ℝ := fun _ _ => 1

/-- Concrete preprocessing: identity channel selection, no rank reduction. -/
def exPrep : (Fin 1 → Fin 1 → ℝ) → Fin 1 → Fin 1 → ℝ := id

/-- Concrete one-wavelet bank with an opaque kernel. -/
def exWs : Fin 1 → Unit := fun _ => ()

/-- Concrete convolution collaborator returning the constant coefficient 2. -/
def exCwt2 : (Fin 1 → Fin 1 → ℝ) → Unit → Fin 1 → Fin 1 → ℂ := fun _ _ _ _ => 2

/-- Concrete convolution collaborator returning all-zero coefficients, as
produced by an all-zero trial (convolution is linear). -/
def exCwt0 : (Fin 1 → Fin 1 → ℝ) → Unit → Fin 1 → Fin 1 → ℂ := fun _ _ _ _ => 0

/-- One concrete trial. -/
def exTrial : Fin 1 → Fin 1 → ℝ := fun _ _ => 0

/-- A second concrete trial for witnesses. -/
def exTrial2 : Fin 1 → Fin 1 → ℝ := fun _ _ => 1

/-- Concrete 1×1 SVD factors for the C5 witness. -/
noncomputable def exU : Fin 1 → Fin 1 → ℝ := fun _ _ => 3

/-- Concrete singular values for the C5 witness. -/
noncomputable def exS : Fin 1 → ℝ := fun _ => 2

/-- Concrete right-singular rows for the C5 witness. -/
noncomputable def exVhM : Fin 1 → Fin 1 → ℝ := fun _ _ => 5

/-- A 3-row kernel for the C7 witness (free orientation). -/
def ex3K : Fin 3 → Fin 1 → ℝ := fun _ _ => 1

/-- The dense frequency grid `[8, 9, 10, 11, 12]` from the claim. -/
def freqGrid : Fin 5 → ℚ := ![8, 9, 10, 11, 12]

/-- Concrete input rows for the C10 witness. -/
def exVecZ : Fin 3 → ℤ := ![0, 1, 2]

end ConcreteInputs

section ComputePowPlvThms

variable {W : Type} {nc m nr nf nt : ℕ}

/-- The trial loop equals its starting accumulator plus the closed-form sums
over the processed trials. -/
theorem powPlvLoop_eq (K : Fin nr → Fin m → ℝ)
    (prep : (Fin nc → Fin nt → ℝ) → Fin m → Fin nt → ℝ)
    (Ws : Fin nf → W) (ori : Ori)
    (cwt : (Fin m → Fin nt → ℝ) → W → Fin m → Fin nt → ℂ)
    (withPlv : Bool) (data : List (Fin nc → Fin nt → ℝ))
    (P : Fin (nOut ori nr) → Fin nf → Fin nt → ℝ)
    (Q : Fin nr → Fin nf → Fin nt → WithBot ℂ) :
    powPlvLoop K prep Ws ori cwt withPlv data (P, Q) =
      (fun s f t => P s f t + powSum K prep Ws ori cwt data s f t,
       fun i f t => Q i f t +
         (if withPlv then plvSum K prep Ws cwt data i f t else 0)) := by
  induction data generalizing P Q with
  | nil =>
      simp [powPlvLoop, powSum, plvSum]
  | cons e rest ih =>
      rw [powPlvLoop, ih]
      refine Prod.ext ?_ ?_
      · funext s f t
        simp only [powSum, List.map_cons, List.sum_cons]
        ring
      · funext i f t
        simp only [plvSum, List.map_cons, List.sum_cons]
        cases withPlv with
        | false => simp
        | true => simp [add_assoc]

theorem runBatch_eq (K : Fin nr → Fin m → ℝ)
    (prep : (Fin nc → Fin nt → ℝ) → Fin m → Fin nt → ℝ)
    (Ws : Fin nf → W) (ori : Ori)
    (cwt : (Fin m → Fin nt → ℝ) → W → Fin m → Fin nt → ℂ)
    (withPlv : Bool) (batch : List (Fin nc → Fin nt → ℝ)) :
    runBatch K prep Ws ori cwt withPlv batch =
      (powSum K prep Ws ori cwt batch,
       fun i f t => if withPlv then plvSum K prep Ws cwt batch i f t else 0) := by
  rw [runBatch, powPlvLoop_eq]
  refine Prod.ext (by funext s f t; simp) (by funext i f t; simp)

theorem powSum_append (K : Fin nr → Fin m → ℝ)
    (prep : (Fin nc → Fin nt → ℝ) → Fin m → Fin nt → ℝ)
    (Ws : Fin nf → W) (ori : Ori)
    (cwt : (Fin m → Fin nt → ℝ) → W → Fin m → Fin nt → ℂ)
    (a b : List (Fin nc → Fin nt → ℝ)) :
    powSum K prep Ws ori cwt (a ++ b) =
      fun s f t => powSum K prep Ws ori cwt a s f t +
        powSum K prep Ws ori cwt b s f t := by
  funext s f t
  simp [powSum]

theorem plvSum_append (K : Fin nr → Fin m → ℝ)
    (prep : (Fin nc → Fin nt → ℝ) → Fin m → Fin nt → ℝ)
    (Ws : Fin nf → W)
    (cwt : (Fin m → Fin nt → ℝ) → W → Fin m → Fin nt → ℂ)
    (a b : List (Fin nc → Fin nt → ℝ)) :
    plvSum K prep Ws cwt (a ++ b) =
      fun i f t => plvSum K prep Ws cwt a i f t +
        plvSum K prep Ws cwt b i f t := by
  funext i f t
  simp [plvSum]

/-- Summed power over a concatenation of batches, pointwise. -/
theorem powSum_flatten (K : Fin nr → Fin m → ℝ)
    (prep : (Fin nc → Fin nt → ℝ) → Fin m → Fin nt → ℝ)
    (Ws : Fin nf → W) (ori : Ori)
    (cwt : (Fin m → Fin nt → ℝ) → W → Fin m → Fin nt → ℂ)
    (parts : List (List (Fin nc → Fin nt → ℝ)))
    (s : Fin (nOut ori nr)) (f : Fin nf) (t : Fin nt) :
    powSum K prep Ws ori cwt parts.flatten s f t =
      (parts.map (fun p => powSum K prep Ws ori cwt p s f t)).sum := by
  induction parts with
  | nil => simp [powSum]
  | cons p rest ih =>
      rw [List.flatten_cons, powSum_append]
      simp [ih]

/-- Summed phase-lock tensor over a concatenation of batches, pointwise. -/
theorem plvSum_flatten (K : Fin nr → Fin m → ℝ)
    (prep : (Fin nc → Fin nt → ℝ) → Fin m → Fin nt → ℝ)
    (Ws : Fin nf → W)
    (cwt : (Fin m → Fin nt → ℝ) → W → Fin m → Fin nt → ℂ)
    (parts : List (List (Fin nc → Fin nt → ℝ)))
    (i : Fin nr) (f : Fin nf) (t : Fin nt) :
    plvSum K prep Ws cwt parts.flatten i f t =
      (parts.map (fun p => plvSum K prep Ws cwt p i f t)).sum := by
  induction parts with
  | nil => simp [plvSum]
  | cons p rest ih =>
      rw [List.flatten_cons, plvSum_append]
      simp [ih]

/-- Merging the per-batch partial results of any list of batches equals
running one batch on the concatenation of the batches. -/
theorem mergeOuts_runBatch (K : Fin nr → Fin m → ℝ)
    (prep : (Fin nc → Fin nt → ℝ) → Fin m → Fin nt → ℝ)
    (Ws : Fin nf → W) (ori : Ori)
    (cwt : (Fin m → Fin nt → ℝ) → W → Fin m → Fin nt → ℂ)
    (withPlv : Bool) (parts : List (List (Fin nc → Fin nt → ℝ))) :
    mergeOuts (parts.map (runBatch K prep Ws ori cwt withPlv)) =
      runBatch K prep Ws ori cwt withPlv parts.flatten := by
  refine Prod.ext ?_ ?_
  · funext s f t
    simp only [mergeOuts, List.map_map, Function.comp_def, runBatch_eq]
    rw [powSum_flatten]
  · funext i f t
    simp only [mergeOuts, List.map_map, Function.comp_def, runBatch_eq]
    rw [plvSum_flatten]
    cases withPlv with
    | false => simp
    | true => simp

end ComputePowPlvThms

section ArraySplitThms

variable {α : Type}

theorem chunksOf_length (l : List α) (sz : List ℕ) :
    (chunksOf l sz).length = sz.length := by
  induction sz generalizing l with
  | nil => simp [chunksOf]
  | cons s rest ih => simp [chunksOf, ih]

theorem chunksOf_flatten (l : List α) (sz : List ℕ) (h : sz.sum = l.length) :
    (chunksOf l sz).flatten = l := by
  induction sz generalizing l with
  | nil =>
      simp only [List.sum_nil] at h
      simp [chunksOf, List.eq_nil_of_length_eq_zero h.symm]
  | cons s rest ih =>
      simp only [List.sum_cons] at h
      rw [chunksOf, List.flatten_cons, ih (l.drop s) (by simp; omega)]
      exact List.take_append_drop s l

theorem splitSizes_length (len n : ℕ) : (splitSizes len n).length = n := by
  simp [splitSizes]

theorem splitSizes_sum (len n : ℕ) (hn : 0 < n) :
    (splitSizes len n).sum = len := by
  have hmod : len % n < n := Nat.mod_lt _ hn
  have hlist : (splitSizes len n).sum =
      ∑ i in Finset.range n, (len / n + if i < len % n then 1 else 0) := rfl
  rw [hlist, Finset.sum_add_distrib, Finset.sum_const, Finset.card_range,
    Finset.sum_boole]
  have hfilter : Finset.filter (fun i => i < len % n) (Finset.range n) =
      Finset.range (len % n) := by
    ext i
    simp only [Finset.mem_filter, Finset.mem_range]
    omega
  rw [hfilter, Finset.card_range]
  have := Nat.div_add_mod len n
  simp only [smul_eq_mul, Nat.cast_id]
  omega

/-- `np.array_split(l, n)` returns exactly `n` chunks. -/
theorem arraySplit_length (l : List α) (n : ℕ) :
    (arraySplit l n).length = n := by
  rw [arraySplit, chunksOf_length, splitSizes_length]

/-- For `0 < n`, the chunks of `np.array_split(l, n)` concatenate back to
`l`: the split is a contiguous partition of the trial set. -/
theorem arraySplit_flatten (l : List α) (n : ℕ) (hn : 0 < n) :
    (arraySplit l n).flatten = l := by
  rw [arraySplit, chunksOf_flatten]
  exact splitSizes_sum _ _ hn

end ArraySplitThms

section MeanXyzThms

variable {α : Type} (add : α → α → α) (div3 : α → α)

theorem mean_xyz_none {nr : ℕ} (vec : Fin nr → α) (h : nr % 3 ≠ 0) :
    mean_xyz add div3 vec = none := by
  simp [mean_xyz, h]

/-- C10: `_mean_xyz` mutates its input in place — in the final state of the
input array, each row `0, 3, 6, …` holds the mean of its 3-row group, every
other row is unchanged, and the returned array is the strided view of rows
`0, 3, 6, …` of that final state (`comb = vec[0::3]`), not a fresh array. -/
theorem c10_mean_xyz_in_place {nr : ℕ} (vec : Fin nr → α) (h : nr % 3 = 0) :
    ∃ out : (Fin nr → α) × (Fin (nr / 3) → α),
      mean_xyz add div3 vec = some out ∧
      (∀ (i : Fin nr) (h1 : i.val + 1 < nr) (h2 : i.val + 2 < nr),
          i.val % 3 = 0 →
          out.1 i = div3 (add (add (vec i) (vec ⟨i.val + 1, h1⟩))
            (vec ⟨i.val + 2, h2⟩))) ∧
      (∀ i : Fin nr, i.val % 3 ≠ 0 → out.1 i = vec i) ∧
      (∀ (g : Fin (nr / 3)) (hg : 3 * g.val < nr),
          out.2 g = out.1 ⟨3 * g.val, hg⟩) := by
  rw [mean_xyz, dif_pos h]
  refine ⟨_, rfl, ?_, ?_, ?_⟩
  · intro i h1 h2 hi
    have hi1 : (i.val + 1) % 3 ≠ 0 := by omega
    have hi2 : (i.val + 2) % 3 ≠ 0 := by omega
    simp [hi, hi1, hi2]
  · intro i hi
    simp [hi]
  · intro g hg
    rfl

end MeanXyzThms

section FinalPlvThms

variable {nr nf nt : ℕ}

theorem finalPlv_free_eq (nave : ℕ)
    (plvT : Fin nr → Fin nf → Fin nt → WithBot ℂ) (h : nr % 3 = 0) :
    finalPlv .free nave plvT =
      some (fun g f t =>
        plvCollapse3 nave
          (plvT ⟨3 * g.val, by have hg : g.val < nr / 3 := g.isLt; omega⟩ f t)
          (plvT ⟨3 * g.val + 1, by have hg : g.val < nr / 3 := g.isLt; omega⟩ f t)
          (plvT ⟨3 * g.val + 2, by have hg : g.val < nr / 3 := g.isLt; omega⟩ f t)) := by
  rw [finalPlv]
  simp only [mean_xyz, dif_pos h, Option.map_some']
  congr 1
  funext g f t
  have h0 : (3 * g.val) % 3 = 0 := by omega
  have h1 : (3 * g.val + 1) % 3 ≠ 0 := by omega
  have h2 : (3 * g.val + 2) % 3 ≠ 0 := by omega
  simp only [h0, h1, h2, dif_pos, dif_neg, if_pos, not_false_iff]
  cases ha : plvT ⟨3 * g.val, by have hg : g.val < nr / 3 := g.isLt; omega⟩ f t with
  | bot =>
      simp [plvCollapse3, ha, WithBot.bot_add]
  | coe x =>
      cases hb : plvT ⟨3 * g.val + 1, by have hg : g.val < nr / 3 := g.isLt; omega⟩ f t with
      | bot => simp [plvCollapse3, ha, hb]
      | coe y =>
          cases hc : plvT ⟨3 * g.val + 2, by have hg : g.val < nr / 3 := g.isLt; omega⟩ f t with
          | bot => simp [plvCollapse3, ha, hb, hc]
          | coe z =>
              simp only [ha, hb, hc, WithBot.map_coe, ← WithBot.coe_add]
              simp only [plvCollapse3]
              rfl

theorem finalPlv_free_none (nave : ℕ)
    (plvT : Fin nr → Fin nf → Fin nt → WithBot ℂ) (h : nr % 3 ≠ 0) :
    finalPlv .free nave plvT = none := by
  rw [finalPlv]
  simp [mean_xyz, h]

end FinalPlvThms

theorem plvF_exCwt2 (e : Fin 1 → Fin 1 → ℝ) (i t : Fin 1) :
    plvF exK (exCwt2 (exPrep e) ()) i t = 2 := by
  simp [plvF, npDot, tfrRe, tfrIm, exK, exCwt2, Fin.sum_univ_one]

/-- C1, counterexample: with kernel `[[1.0]]` and one trial whose wavelet
coefficient is the constant `2`, the PLV tensor entry accumulated before the
final magnitude/average step is `2/|2| = 1`, while the plain sum of the raw
complex projected values is `2`: the code unit-normalizes each per-trial
value before summation, so the claim's "summed without any unit-magnitude
normalization" is false. -/
theorem c1_counterexample :
    ((compute_pow_plv exK exPrep exWs Ori.fixed exCwt2 true [exTrial]).2).map
        (fun P => P 0 0 0) = some ((1 : ℂ) : WithBot ℂ) ∧
      rawPlvSum exK exPrep exWs exCwt2 [exTrial] 0 0 0 = 2 ∧
      ((1 : ℂ) : WithBot ℂ) ≠ ((2 : ℂ) : WithBot ℂ) := by
  refine ⟨?_, ?_, ?_⟩
  · rw [compute_pow_plv]
    simp only [if_true, powPlvLoop, Option.map_some']
    rw [plvF_exCwt2]
    rw [plvNormEntry]
    rw [if_neg (by rw [Complex.abs_two]; norm_num)]
    simp only [Pi.zero_apply, Complex.abs_two, zero_add]
    norm_num
  · rw [rawPlvSum]
    simp only [List.map_cons, List.map_nil, List.sum_cons, List.sum_nil]
    rw [plvF_exCwt2]
    ring
  · simp only [ne_eq, WithBot.coe_inj]
    norm_num

/-- C1, amended: in each wavelet application the raw complex value per source
row is `real-projection + i·imaginary-projection`, but it is unit-magnitude
normalized (`plv_f /= np.abs(plv_f)`) before being added into the PLV
tensor; the PLV tensor just before the final magnitude/average step equals
the sum over trials of the normalized values `z / |z|` (non-finite when
`|z| = 0`), not of the raw values. -/
theorem c1_plv_accumulates_normalized {W : Type} {nc m nr nf nt : ℕ}
    (K : Fin nr → Fin m → ℝ)
    (prep : (Fin nc → Fin nt → ℝ) → Fin m → Fin nt → ℝ)
    (Ws : Fin nf → W) (ori : Ori)
    (cwt : (Fin m → Fin nt → ℝ) → W → Fin m → Fin nt → ℂ)
    (data : List (Fin nc → Fin nt → ℝ)) :
    (compute_pow_plv K prep Ws ori cwt true data).2 =
      some (plvSum K prep Ws cwt data) := by
  rw [compute_pow_plv]
  simp only [if_true]
  rw [powPlvLoop_eq]
  congr 1
  funext i f t
  simp

/-- C2: the unit-normalization `plv_f /= np.abs(plv_f)` is NOT guarded: with
kernel `[[1.0]]` and a trial whose wavelet coefficients are all zero, the
per-trial complex accumulator has magnitude zero at every entry, the
division computes `0/0`, and the resulting non-finite value (modelled `⊥`)
enters the PLV tensor instead of the claimed phase-lock value 0. -/
theorem c2_unguarded_divide_by_zero :
    ((compute_pow_plv exK exPrep exWs Ori.fixed exCwt0 true [exTrial]).2).map
        (fun P => P 0 0 0) = some (⊥ : WithBot ℂ) ∧
      plvNormEntry 0 = (⊥ : WithBot ℂ) := by
  have hz : plvF exK (exCwt0 (exPrep exTrial) ()) 0 0 = 0 := by
    simp [plvF, npDot, tfrRe, tfrIm, exK, exCwt0, Fin.sum_univ_one]
  refine ⟨?_, by simp [plvNormEntry]⟩
  rw [compute_pow_plv]
  simp only [if_true, powPlvLoop, Option.map_some']
  rw [hz]
  simp [plvNormEntry]

/-- C6: per-trial power accumulation.  Appending one trial increases the
power tensor, in free orientation, by the sum of squares of the 3 raw
projected component values per group (separately for the real-part and
imaginary-part projections, then added); in fixed orientation by the square
of the single projected value per component. -/
theorem c6_power_combination {W : Type} {nc m nr nf nt : ℕ}
    (K : Fin nr → Fin m → ℝ)
    (prep : (Fin nc → Fin nt → ℝ) → Fin m → Fin nt → ℝ)
    (Ws : Fin nf → W)
    (cwt : (Fin m → Fin nt → ℝ) → W → Fin m → Fin nt → ℂ)
    (wp : Bool) (data : List (Fin nc → Fin nt → ℝ))
    (e : Fin nc → Fin nt → ℝ) :
    (∀ (j : Fin (nr / 3)) (f : Fin nf) (t : Fin nt)
        (h0 : 3 * j.val < nr) (h1 : 3 * j.val + 1 < nr)
        (h2 : 3 * j.val + 2 < nr),
        (compute_pow_plv K prep Ws Ori.free cwt wp (data ++ [e])).1 j f t =
          (compute_pow_plv K prep Ws Ori.free cwt wp data).1 j f t +
            ((npDot K (tfrRe (cwt (prep e) (Ws f))) ⟨3 * j.val, h0⟩ t ^ 2 +
              npDot K (tfrRe (cwt (prep e) (Ws f))) ⟨3 * j.val + 1, h1⟩ t ^ 2 +
              npDot K (tfrRe (cwt (prep e) (Ws f))) ⟨3 * j.val + 2, h2⟩ t ^ 2) +
             (npDot K (tfrIm (cwt (prep e) (Ws f))) ⟨3 * j.val, h0⟩ t ^ 2 +
              npDot K (tfrIm (cwt (prep e) (Ws f))) ⟨3 * j.val + 1, h1⟩ t ^ 2 +
              npDot K (tfrIm (cwt (prep e) (Ws f))) ⟨3 * j.val + 2, h2⟩ t ^ 2))) ∧
    (∀ (i : Fin nr) (f : Fin nf) (t : Fin nt),
        (compute_pow_plv K prep Ws Ori.fixed cwt wp (data ++ [e])).1 i f t =
          (compute_pow_plv K prep Ws Ori.fixed cwt wp data).1 i f t +
            (npDot K (tfrRe (cwt (prep e) (Ws f))) i t ^ 2 +
             npDot K (tfrIm (cwt (prep e) (Ws f))) i t ^ 2)) := by
  constructor
  · intro j f t h0 h1 h2
    rw [compute_pow_plv, compute_pow_plv]
    simp only [powPlvLoop_eq]
    simp only [Pi.zero_apply, zero_add]
    rw [powSum_append]
    simp only [powSum, List.map_cons, List.map_nil, List.sum_cons,
      List.sum_nil, add_zero]
    congr 1
  · intro i f t
    rw [compute_pow_plv, compute_pow_plv]
    simp only [powPlvLoop_eq]
    simp only [Pi.zero_apply, zero_add]
    rw [powSum_append]
    simp only [powSum, List.map_cons, List.map_nil, List.sum_cons,
      List.sum_nil, add_zero]
    congr 1

/-- C3: the public `source_induced_power` forwards the literal constants
`pca=True, n_jobs=1` to `_source_induced_power` (line 341) instead of the
caller's `pca` and `n_jobs` arguments, so two calls differing only in those
arguments return identical results, always computed with PCA enabled and a
single worker. -/
theorem c3_pub_ignores_pca_njobs {W : Type} (ctx : SIPCtx W)
    (rescaleFn : (Fin (nOut ctx.ori ctx.ns) → Fin ctx.nf → Fin ctx.nt → ℝ) →
      Fin (nOut ctx.ori ctx.ns) → Fin ctx.nf → Fin ctx.nt → ℝ)
    (dS : Bool) :
    (∀ (pca₁ pca₂ : Bool) (nj₁ nj₂ : ℕ),
      source_induced_power_pub ctx rescaleFn dS pca₁ nj₁ =
        source_induced_power_pub ctx rescaleFn dS pca₂ nj₂) ∧
    (∀ (pca : Bool) (nj : ℕ),
      source_induced_power_pub ctx rescaleFn dS pca nj =
        (source_induced_power_aux ctx dS true 1 true).map
          (fun r => (rescaleFn r.1, r.2))) :=
  ⟨fun _ _ _ _ => rfl, fun _ _ => rfl⟩

/-- C4: computing per-batch partial power/PLV tensors over any contiguous
partition of the trial set and merging by element-wise summation equals
processing all trials in one batch (exactly, hence within any floating
tolerance), and the merged result is invariant under permuting the batch
order. -/
theorem c4_batch_partition_invariance {W : Type} {nc m nr nf nt : ℕ}
    (K : Fin nr → Fin m → ℝ)
    (prep : (Fin nc → Fin nt → ℝ) → Fin m → Fin nt → ℝ)
    (Ws : Fin nf → W) (ori : Ori)
    (cwt : (Fin m → Fin nt → ℝ) → W → Fin m → Fin nt → ℂ)
    (wp : Bool)
    (parts parts' : List (List (Fin nc → Fin nt → ℝ)))
    (data : List (Fin nc → Fin nt → ℝ))
    (hparts : parts.flatten = data) (hperm : parts'.Perm parts) :
    mergeOuts (parts.map (runBatch K prep Ws ori cwt wp)) =
      runBatch K prep Ws ori cwt wp data ∧
    mergeOuts (parts'.map (runBatch K prep Ws ori cwt wp)) =
      mergeOuts (parts.map (runBatch K prep Ws ori cwt wp)) := by
  constructor
  · rw [mergeOuts_runBatch, hparts]
  · refine Prod.ext ?_ ?_
    · funext s f t
      simp only [mergeOuts]
      exact List.Perm.sum_eq ((hperm.map _).map _)
    · funext i f t
      simp only [mergeOuts]
      exact List.Perm.sum_eq ((hperm.map _).map _)


/-- Witness for C4 at a concrete two-trial set split into singleton batches,
with the two batches also swapped. -/
theorem c4_witness :
    mergeOuts ([[exTrial], [exTrial2]].map
        (runBatch exK exPrep exWs Ori.fixed exCwt2 true)) =
      runBatch exK exPrep exWs Ori.fixed exCwt2 true [exTrial, exTrial2] ∧
    mergeOuts ([[exTrial2], [exTrial]].map
        (runBatch exK exPrep exWs Ori.fixed exCwt2 true)) =
      mergeOuts ([[exTrial], [exTrial2]].map
        (runBatch exK exPrep exWs Ori.fixed exCwt2 true)) :=
  c4_batch_partition_invariance exK exPrep exWs Ori.fixed exCwt2 true
    [[exTrial], [exTrial2]] [[exTrial2], [exTrial]] [exTrial, exTrial2]
    rfl (List.Perm.swap _ _ _)

/-- C5: the PCA branch truncates to rank equal to the number of singular
values strictly exceeding `1e-8` times the largest singular value (the
factors arrive sorted in descending order from `scipy.linalg.svd`, so
`s[0]` is the largest), replaces `K` by `s[:rank] * U[:, :rank]`, and keeps
the projector `Vh[:rank]`, whose row type has exactly `rank` rows over the
`n_selected_channels` columns. -/
theorem c5_pca_rank_truncation {p nr nk : ℕ} (hp : 0 < p) (hpr : p ≤ nr)
    (hpk : p ≤ nk) (U : Fin nr → Fin nr → ℝ) (s : Fin p → ℝ)
    (Vh : Fin nk → Fin nk → ℝ)
    (hsort : ∀ i j : Fin p, i ≤ j → s j ≤ s i) :
    (pcaStep hp hpr hpk U s Vh).rank =
      (Finset.univ.filter (fun i =>
        (1 / 10 ^ 8 : ℝ) *
          (Finset.univ.sup' ⟨⟨0, hp⟩, Finset.mem_univ _⟩ s) < s i)).card ∧
    (∀ (i : Fin nr) (j : Fin (pcaStep hp hpr hpk U s Vh).rank)
        (hjp : j.val < p) (hjr : j.val < nr),
        (pcaStep hp hpr hpk U s Vh).K i j = s ⟨j.val, hjp⟩ * U i ⟨j.val, hjr⟩) ∧
    (∀ (j : Fin (pcaStep hp hpr hpk U s Vh).rank) (c : Fin nk)
        (hjk : j.val < nk),
        (pcaStep hp hpr hpk U s Vh).Vh j c = Vh ⟨j.val, hjk⟩ c) := by
  have hmax : Finset.univ.sup' ⟨⟨0, hp⟩, Finset.mem_univ _⟩ s = s ⟨0, hp⟩ := by
    refine le_antisymm ?_ (Finset.le_sup' s (Finset.mem_univ _))
    refine Finset.sup'_le _ _ (fun i _ => ?_)
    exact hsort ⟨0, hp⟩ i (by simp [Fin.le_def])
  refine ⟨?_, fun i j hjp hjr => rfl, fun j c hjk => rfl⟩
  rw [hmax]
  rfl




/-- Witness for C5 with a concrete 1×1 SVD. -/
theorem c5_witness :
    (∀ i j : Fin 1, i ≤ j → exS j ≤ exS i) ∧
    ((pcaStep one_pos (le_refl 1) (le_refl 1) exU exS exVhM).rank =
      (Finset.univ.filter (fun i : Fin 1 =>
        (1 / 10 ^ 8 : ℝ) *
          (Finset.univ.sup' ⟨⟨0, one_pos⟩, Finset.mem_univ _⟩ exS) <
            exS i)).card ∧
     (∀ (i : Fin 1)
        (j : Fin (pcaStep one_pos (le_refl 1) (le_refl 1) exU exS exVhM).rank)
        (hjp : j.val < 1) (hjr : j.val < 1),
        (pcaStep one_pos (le_refl 1) (le_refl 1) exU exS exVhM).K i j =
          exS ⟨j.val, hjp⟩ * exU i ⟨j.val, hjr⟩) ∧
     (∀ (j : Fin (pcaStep one_pos (le_refl 1) (le_refl 1) exU exS exVhM).rank)
        (c : Fin 1) (hjk : j.val < 1),
        (pcaStep one_pos (le_refl 1) (le_refl 1) exU exS exVhM).Vh j c =
          exVhM ⟨j.val, hjk⟩ c)) :=
  ⟨fun _ _ _ => le_refl _,
   c5_pca_rank_truncation one_pos (le_refl 1) (le_refl 1) exU exS exVhM
     (fun _ _ _ => le_refl _)⟩

/-- C7: when phase-lock is requested, the final PLV result takes the
element-wise magnitude of the summed complex PLV tensor, divides by the
trial count, and — in free orientation — collapses each group of 3
consecutive rows by arithmetic mean (`_mean_xyz`), which requires the row
count to be a multiple of 3 (`_mean_xyz` raises otherwise). -/
theorem c7_final_plv_magnitude_mean {W : Type} {nc m nr nf nt : ℕ}
    (K : Fin nr → Fin m → ℝ)
    (prep : (Fin nc → Fin nt → ℝ) → Fin m → Fin nt → ℝ)
    (Ws : Fin nf → W)
    (cwt : (Fin m → Fin nt → ℝ) → W → Fin m → Fin nt → ℂ)
    (data : List (Fin nc → Fin nt → ℝ)) (nave : ℕ) :
    (∀ h3 : nr % 3 = 0,
      finalPlv Ori.free nave (runBatch K prep Ws Ori.free cwt true data).2 =
        some (fun g f t =>
          plvCollapse3 nave
            (plvSum K prep Ws cwt data
              ⟨3 * g.val, by have hg : g.val < nr / 3 := g.isLt; omega⟩ f t)
            (plvSum K prep Ws cwt data
              ⟨3 * g.val + 1, by have hg : g.val < nr / 3 := g.isLt; omega⟩ f t)
            (plvSum K prep Ws cwt data
              ⟨3 * g.val + 2, by have hg : g.val < nr / 3 := g.isLt; omega⟩ f t))) ∧
    (nr % 3 ≠ 0 →
      finalPlv Ori.free nave (runBatch K prep Ws Ori.free cwt true data).2 =
        none) := by
  constructor
  · intro h3
    have hb : (runBatch K prep Ws Ori.free cwt true data).2 =
        plvSum K prep Ws cwt data := by
      rw [runBatch_eq]
      simp
    rw [hb, finalPlv_free_eq _ _ h3]
  · intro h3
    exact finalPlv_free_none _ _ h3


/-- Witness for C7 at a concrete 3-row free-orientation configuration. -/
theorem c7_witness :
    3 % 3 = 0 ∧
    finalPlv Ori.free 1
        (runBatch ex3K exPrep exWs Ori.free exCwt2 true [exTrial]).2 =
      some (fun g f t =>
        plvCollapse3 1
          (plvSum ex3K exPrep exWs exCwt2 [exTrial]
            ⟨3 * g.val, by have hg : g.val < 3 / 3 := g.isLt; omega⟩ f t)
          (plvSum ex3K exPrep exWs exCwt2 [exTrial]
            ⟨3 * g.val + 1, by have hg : g.val < 3 / 3 := g.isLt; omega⟩ f t)
          (plvSum ex3K exPrep exWs exCwt2 [exTrial]
            ⟨3 * g.val + 2, by have hg : g.val < 3 / 3 := g.isLt; omega⟩ f t)) :=
  ⟨rfl, (c7_final_plv_magnitude_mean ex3K exPrep exWs exCwt2 [exTrial] 1).1 rfl⟩


/-- C8: band averaging selects exactly the frequency-grid indices whose
frequency lies inside the inclusive band `[low, high]` and averages the
power over that index subset (frequency axis only); on the grid
`[8, 9, 10, 11, 12]` with band `(8, 10)` the selected indices are `0, 1, 2`
and the band power is the mean of the power at those three grid points. -/
theorem c8_band_average {ns nt : ℕ} (P : Fin ns → Fin 5 → Fin nt → ℝ)
    (s : Fin ns) (t : Fin nt) :
    (∀ {nf : ℕ} (frequencies : Fin nf → ℚ) (lo hi : ℚ) (k : Fin nf),
      k ∈ bandIdx frequencies lo hi ↔
        lo ≤ frequencies k ∧ frequencies k ≤ hi) ∧
    bandIdx freqGrid 8 10 = [0, 1, 2] ∧
    bandInducedPower P freqGrid 8 10 s t =
      (P s 0 t + P s 1 t + P s 2 t) / 3 := by
  refine ⟨?_, ?_, ?_⟩
  · intro nf frequencies lo hi k
    simp [bandIdx, List.mem_filter, List.mem_finRange]
  · decide
  · have hidx : bandIdx freqGrid 8 10 = [0, 1, 2] := by decide
    rw [bandInducedPower, hidx, bandPower]
    norm_num
    ring

/-- C9: with at least one trial and requested parallelism exceeding the
trial count, the computation clamps the batch count to
`min(n_jobs, trial_count) = trial_count` instead of failing, splits into
exactly that many batches, and the merged numeric result equals the one
obtained with any other positive batch count. -/
theorem c9_parallelism_clamped {W : Type} {nc m nr nf nt : ℕ}
    (K : Fin nr → Fin m → ℝ)
    (prep : (Fin nc → Fin nt → ℝ) → Fin m → Fin nt → ℝ)
    (Ws : Fin nf → W) (ori : Ori)
    (cwt : (Fin m → Fin nt → ℝ) → W → Fin m → Fin nt → ℂ)
    (wp : Bool) (data : List (Fin nc → Fin nt → ℝ)) (n_jobs : ℕ)
    (hN : 1 ≤ data.length) (hgt : data.length < n_jobs) :
    min n_jobs data.length = data.length ∧
    (arraySplit data (min n_jobs data.length)).length =
      min n_jobs data.length ∧
    (∀ b : ℕ, 1 ≤ b →
      mergeOuts ((arraySplit data (min n_jobs data.length)).map
          (runBatch K prep Ws ori cwt wp)) =
        mergeOuts ((arraySplit data (min b data.length)).map
          (runBatch K prep Ws ori cwt wp))) := by
  refine ⟨min_eq_right (le_of_lt hgt), arraySplit_length _ _, ?_⟩
  intro b hb
  have h1 : 0 < min n_jobs data.length := lt_min (by omega) hN
  have h2 : 0 < min b data.length := lt_min hb hN
  rw [mergeOuts_runBatch, mergeOuts_runBatch, arraySplit_flatten _ _ h1,
    arraySplit_flatten _ _ h2]

/-- Witness for C9 at a concrete two-trial set with `n_jobs = 5`. -/
theorem c9_witness :
    min 5 [exTrial, exTrial2].length = [exTrial, exTrial2].length ∧
    (arraySplit [exTrial, exTrial2] (min 5 [exTrial, exTrial2].length)).length =
      min 5 [exTrial, exTrial2].length ∧
    (∀ b : ℕ, 1 ≤ b →
      mergeOuts ((arraySplit [exTrial, exTrial2]
          (min 5 [exTrial, exTrial2].length)).map
          (runBatch exK exPrep exWs Ori.fixed exCwt2 true)) =
        mergeOuts ((arraySplit [exTrial, exTrial2]
            (min b [exTrial, exTrial2].length)).map
          (runBatch exK exPrep exWs Ori.fixed exCwt2 true))) :=
  c9_parallelism_clamped exK exPrep exWs Ori.fixed exCwt2 true
    [exTrial, exTrial2] 5 (by norm_num) (by norm_num)


/-- Witness for C10 on concrete integer rows: the in-place characterization
instantiated at a 3-row array. -/
theorem c10_witness :
    3 % 3 = 0 ∧
    (∃ out : (Fin 3 → ℤ) × (Fin (3 / 3) → ℤ),
      mean_xyz (fun a b : ℤ => a + b) (fun a : ℤ => a / 3) exVecZ =
        some out ∧
      (∀ (i : Fin 3) (h1 : i.val + 1 < 3) (h2 : i.val + 2 < 3),
          i.val % 3 = 0 →
          out.1 i = (exVecZ i + exVecZ ⟨i.val + 1, h1⟩ +
            exVecZ ⟨i.val + 2, h2⟩) / 3) ∧
      (∀ i : Fin 3, i.val % 3 ≠ 0 → out.1 i = exVecZ i) ∧
      (∀ (g : Fin (3 / 3)) (hg : 3 * g.val < 3),
          out.2 g = out.1 ⟨3 * g.val, hg⟩)) :=
  ⟨by decide,
   c10_mean_xyz_in_place (fun a b : ℤ => a + b) (fun a : ℤ => a / 3) exVecZ
     (by decide)⟩

/-- Witness for C6 at the concrete 3-row free-orientation kernel, one
appended trial, group 0, frequency 0, time 0. -/
theorem c6_witness :
    (compute_pow_plv ex3K exPrep exWs Ori.free exCwt2 true
        ([] ++ [exTrial])).1 ⟨0, by decide⟩ 0 0 =
      (compute_pow_plv ex3K exPrep exWs Ori.free exCwt2 true []).1
          ⟨0, by decide⟩ 0 0 +
        ((npDot ex3K (tfrRe (exCwt2 (exPrep exTrial) (exWs 0)))
            ⟨3 * 0, by decide⟩ 0 ^ 2 +
          npDot ex3K (tfrRe (exCwt2 (exPrep exTrial) (exWs 0)))
            ⟨3 * 0 + 1, by decide⟩ 0 ^ 2 +
          npDot ex3K (tfrRe (exCwt2 (exPrep exTrial) (exWs 0)))
            ⟨3 * 0 + 2, by decide⟩ 0 ^ 2) +
         (npDot ex3K (tfrIm (exCwt2 (exPrep exTrial) (exWs 0)))
            ⟨3 * 0, by decide⟩ 0 ^ 2 +
          npDot ex3K (tfrIm (exCwt2 (exPrep exTrial) (exWs 0)))
            ⟨3 * 0 + 1, by decide⟩ 0 ^ 2 +
          npDot ex3K (tfrIm (exCwt2 (exPrep exTrial) (exWs 0)))
            ⟨3 * 0 + 2, by decide⟩ 0 ^ 2)) :=
  (c6_power_combination ex3K exPrep exWs exCwt2 true [] exTrial).1
    ⟨0, by decide⟩ 0 0 (by decide) (by decide) (by decide)
